import Mathlib

/-!
Verification of the minesweeper board engine (`minesweeper.py`).

The engine state is a record of the grid dimensions, the mine count, and the
three coordinate sets (mines, revealed, flags).  Coordinates are pairs of
integers, as in the Python source (which never restricts coordinates to the
grid inside the engine itself).  The neighbor-count dictionary of the source
is computed at construction from the mine set and is never mutated afterwards
(no operation mutates `mines`, `rows` or `cols`), so it is embedded here as a
derived function `neighbor_counts` of the state; it is extensionally the
dictionary the source stores.
-/

abbrev Cell : Type := Int × Int

structure Minesweeper where
  rows : Int
  cols : Int
  mine_count : Int
  mines : Finset Cell
  revealed : Finset Cell
  flags : Finset Cell
deriving DecidableEq

namespace Minesweeper

/-- The in-bounds cells `[0,rows) x [0,cols)`. -/
def grid (g : Minesweeper) : Finset Cell :=
  Finset.Icc 0 (g.rows - 1) ×ˢ Finset.Icc 0 (g.cols - 1)

theorem mem_grid (g : Minesweeper) (x : Cell) :
    x ∈ g.grid ↔ 0 ≤ x.1 ∧ x.1 < g.rows ∧ 0 ≤ x.2 ∧ x.2 < g.cols := by
  cases x with
  | mk r c =>
    simp only [grid, Finset.mem_product, Finset.mem_Icc]
    omega

/-- The eight neighbor offsets, in the iteration order of the source
(`dr` in `(-1,0,1)`, then `dc` in `(-1,0,1)`, skipping `(0,0)`). -/
def deltas : List (Int × Int) :=
  [(-1, -1), (-1, 0), (-1, 1), (0, -1), (0, 1), (1, -1), (1, 0), (1, 1)]

/-- `Minesweeper.neighbors`: the in-bounds cells among the eight surrounding
cells, in source iteration order. -/
def neighbors (g : Minesweeper) (row col : Int) : List Cell :=
  deltas.filterMap fun d =>
    if 0 ≤ row + d.1 ∧ row + d.1 < g.rows ∧ 0 ≤ col + d.2 ∧ col + d.2 < g.cols then
      some (row + d.1, col + d.2)
    else none

theorem neighbors_subset_grid (g : Minesweeper) (row col : Int) :
    ∀ x ∈ g.neighbors row col, x ∈ g.grid := by
  intro x hx
  rcases List.mem_filterMap.mp hx with ⟨d, _, hd⟩
  split at hd
  · rcases Option.some.inj hd with rfl
    rename_i hb
    exact (g.mem_grid _).mpr hb
  · simp at hd

/-- `Minesweeper._place_mines`, with the outcome of `random.sample` passed in
as the list `choices` of flattened indices. -/
def place_mines (cols : Int) (choices : List Int) : Finset Cell :=
  (choices.map fun idx => (Int.ediv idx cols, Int.emod idx cols)).toFinset

/-- The neighbor-count dictionary `Minesweeper.neighbor_counts`: defined for
the in-grid non-mine cells (the keys inserted by `_compute_neighbor_counts`),
valuing each at the number of its in-bounds neighbors that are mines. -/
def neighbor_counts (g : Minesweeper) (c : Cell) : Option Nat :=
  if c ∈ g.grid ∧ c ∉ g.mines then
    some ((g.neighbors c.1 c.2).countP fun n => decide (n ∈ g.mines))
  else none

/-- `self.neighbor_counts.get((r, c), 0)`. -/
def countsGet (g : Minesweeper) (c : Cell) : Nat :=
  (g.neighbor_counts c).getD 0

theorem revealMeasure_le (A revealed : Finset Cell) (c : Cell) :
    (A \ revealed).card ≤ (insert c A \ revealed).card :=
  Finset.card_le_card (Finset.sdiff_subset_sdiff (Finset.subset_insert c A) le_rfl)

theorem revealMeasure_lt (A B revealed : Finset Cell) (c : Cell)
    (hB : B ⊆ insert c A) (hc : c ∉ revealed) :
    (B \ insert c revealed).card < (insert c A \ revealed).card := by
  have hsub : B \ insert c revealed ⊆ (insert c A \ revealed).erase c := by
    intro x hx
    rcases Finset.mem_sdiff.mp hx with ⟨hxB, hxout⟩
    have hxc : x ≠ c := fun h => hxout (h ▸ Finset.mem_insert_self c revealed)
    exact Finset.mem_erase.mpr ⟨hxc, Finset.mem_sdiff.mpr
      ⟨hB hxB, fun hr => hxout (Finset.mem_insert_of_mem hr)⟩⟩
  have hcmem : c ∈ insert c A \ revealed :=
    Finset.mem_sdiff.mpr ⟨Finset.mem_insert_self _ _, hc⟩
  calc (B \ insert c revealed).card
      ≤ ((insert c A \ revealed).erase c).card := Finset.card_le_card hsub
    _ < (insert c A \ revealed).card := Finset.card_erase_lt_of_mem hcmem

/-- The `while queue:` loop of `Minesweeper.reveal`.  `revealed` is the
evolving revealed set; all other state read by the loop (`flags`, the
neighbor counts, the bounds used by `neighbors`) is immutable during the
loop and is read from `g`. -/
def revealLoop (g : Minesweeper) (queue : List Cell) (revealed : Finset Cell) :
    Finset Cell :=
  match queue with
  | [] => revealed
  | c :: rest =>
    if c ∈ revealed ∨ c ∈ g.flags then
      revealLoop g rest revealed
    else
      if g.countsGet c = 0 then
        revealLoop g
          (rest ++ (g.neighbors c.1 c.2).filter fun n =>
            n ∉ insert c revealed ∧ n ∉ g.flags)
          (insert c revealed)
      else
        revealLoop g rest (insert c revealed)
termination_by (((g.grid ∪ queue.toFinset) \ revealed).card, queue.length)
decreasing_by
  · simp_wf
    rcases lt_or_eq_of_le (revealMeasure_le (g.grid ∪ rest.toFinset) revealed c) with h | h
    · exact Prod.Lex.left _ _ h
    · rw [← h]
      exact Prod.Lex.right _ (Nat.lt_succ_self _)
  · simp_wf
    apply Prod.Lex.left
    refine revealMeasure_lt _ _ revealed c ?_ ?_
    · intro x hx
      rcases Finset.mem_union.mp hx with h | h
      · exact Finset.mem_insert_of_mem (Finset.mem_union_left _ h)
      · rcases Finset.mem_union.mp h with h | h
        · exact Finset.mem_insert_of_mem (Finset.mem_union_right _ h)
        · exact Finset.mem_insert_of_mem (Finset.mem_union_left _
            (neighbors_subset_grid g c.1 c.2 x
              (List.mem_toFinset.mp (Finset.mem_of_mem_filter x h))))
    · intro hcr
      exact absurd (Or.inl hcr) (by assumption)
  · simp_wf
    apply Prod.Lex.left
    refine revealMeasure_lt _ _ revealed c (Finset.subset_insert c _) ?_
    intro hcr
    exact absurd (Or.inl hcr) (by assumption)

/-- `Minesweeper.reveal`: returns the "safe" boolean and the new state. -/
def reveal (g : Minesweeper) (row col : Int) : Bool × Minesweeper :=
  if (row, col) ∈ g.flags ∨ (row, col) ∈ g.revealed then
    (true, g)
  else if (row, col) ∈ g.mines then
    (false, { g with revealed := insert (row, col) g.revealed })
  else
    (true, { g with revealed := revealLoop g [(row, col)] g.revealed })

/-- `Minesweeper.toggle_flag`. -/
def toggle_flag (g : Minesweeper) (row col : Int) : Minesweeper :=
  if (row, col) ∈ g.revealed then g
  else if (row, col) ∈ g.flags then { g with flags := g.flags.erase (row, col) }
  else { g with flags := insert (row, col) g.flags }

/-- `Minesweeper.is_won`. -/
def is_won (g : Minesweeper) : Bool :=
  decide ((g.revealed.card : Int) = g.rows * g.cols - g.mine_count)

/-- The construction errors of the spec; the source raises `ValueError` with
a distinct message for each of the two checks of `__init__`. -/
inductive ConstructError where
  | InvalidDimensions
  | InvalidMineCount
deriving DecidableEq

/-- `Minesweeper.__init__`, with the outcome of `random.sample` passed in as
`choices`. -/
def new (rows cols mine_count : Int) (choices : List Int) :
    Except ConstructError Minesweeper :=
  if rows ≤ 0 ∨ cols ≤ 0 then
    .error .InvalidDimensions
  else if mine_count ≤ 0 ∨ rows * cols ≤ mine_count then
    .error .InvalidMineCount
  else
    .ok { rows := rows, cols := cols, mine_count := mine_count,
          mines := place_mines cols choices, revealed := ∅, flags := ∅ }

/-- The guarantee of `random.sample(range(rows*cols), mine_count)`: distinct
indices drawn from `[0, rows*cols)`, `mine_count` of them. -/
def SampleOk (rows cols mine_count : Int) (choices : List Int) : Prop :=
  choices.Nodup ∧ (choices.length : Int) = mine_count ∧
    ∀ i ∈ choices, 0 ≤ i ∧ i < rows * cols

/-- States reachable from a successful construction (with any admissible
sampling outcome) by in-bounds `reveal` and `toggle_flag` calls. -/
inductive Reachable : Minesweeper → Prop where
  | init : ∀ rows cols mine_count choices g,
      SampleOk rows cols mine_count choices →
      new rows cols mine_count choices = .ok g → Reachable g
  | reveal_step : ∀ g row col, Reachable g → (row, col) ∈ g.grid →
      Reachable (g.reveal row col).2
  | flag_step : ∀ g row col, Reachable g → (row, col) ∈ g.grid →
      Reachable (g.toggle_flag row col)

/-! ### Basic lemmas about `revealLoop` and `reveal` -/

theorem revealLoop_mono (g : Minesweeper) (queue : List Cell) (revealed : Finset Cell) :
    revealed ⊆ revealLoop g queue revealed := by
  induction queue, revealed using revealLoop.induct g with
  | case1 revealed => rw [revealLoop]
  | case2 revealed c rest hskip ih =>
    rw [revealLoop]
    simp only [hskip, if_pos]
    exact ih
  | case3 revealed c rest hskip hz ih =>
    rw [revealLoop]
    simp only [hskip, if_neg, hz, if_pos, if_false]
    exact (Finset.subset_insert c revealed).trans ih
  | case4 revealed c rest hskip hz ih =>
    rw [revealLoop]
    simp only [hskip, hz, if_neg, if_false]
    exact (Finset.subset_insert c revealed).trans ih

/-- Every cell added by the loop is unflagged. -/
theorem revealLoop_not_flag (g : Minesweeper) (queue : List Cell) (revealed : Finset Cell) :
    ∀ x ∈ revealLoop g queue revealed, x ∈ revealed ∨ x ∉ g.flags := by
  induction queue, revealed using revealLoop.induct g with
  | case1 revealed =>
    rw [revealLoop]
    exact fun x hx => Or.inl hx
  | case2 revealed c rest hskip ih =>
    rw [revealLoop]
    simp only [hskip, if_pos]
    exact ih
  | case3 revealed c rest hskip hz ih =>
    rw [revealLoop]
    simp only [hskip, hz, if_neg, if_pos, if_false]
    intro x hx
    rcases ih x hx with h | h
    · rcases Finset.mem_insert.mp h with rfl | h
      · exact Or.inr fun hcf => hskip (Or.inr hcf)
      · exact Or.inl h
    · exact Or.inr h
  | case4 revealed c rest hskip hz ih =>
    rw [revealLoop]
    simp only [hskip, hz, if_neg, if_false]
    intro x hx
    rcases ih x hx with h | h
    · rcases Finset.mem_insert.mp h with rfl | h
      · exact Or.inr fun hcf => hskip (Or.inr hcf)
      · exact Or.inl h
    · exact Or.inr h

/-- If every queued cell is in the grid, the loop only adds grid cells. -/
theorem revealLoop_grid (g : Minesweeper) (queue : List Cell) (revealed : Finset Cell)
    (hq : ∀ x ∈ queue, x ∈ g.grid) :
    revealLoop g queue revealed ⊆ revealed ∪ g.grid := by
  induction queue, revealed using revealLoop.induct g with
  | case1 revealed => rw [revealLoop]; exact Finset.subset_union_left
  | case2 revealed c rest hskip ih =>
    rw [revealLoop]
    simp only [hskip, if_pos]
    exact ih fun x hx => hq x (List.mem_cons_of_mem c hx)
  | case3 revealed c rest hskip hz ih =>
    rw [revealLoop]
    simp only [hskip, hz, if_neg, if_pos, if_false]
    refine (ih ?_).trans ?_
    · intro x hx
      rcases List.mem_append.mp hx with h | h
      · exact hq x (List.mem_cons_of_mem c h)
      · exact neighbors_subset_grid g c.1 c.2 x (List.mem_of_mem_filter h)
    · intro x hx
      rcases Finset.mem_union.mp hx with h | h
      · rcases Finset.mem_insert.mp h with rfl | h
        · exact Finset.mem_union_right _ (hq x (List.mem_cons_self x rest))
        · exact Finset.mem_union_left _ h
      · exact Finset.mem_union_right _ h
  | case4 revealed c rest hskip hz ih =>
    rw [revealLoop]
    simp only [hskip, hz, if_neg, if_false]
    refine (ih fun x hx => hq x (List.mem_cons_of_mem c hx)).trans ?_
    intro x hx
    rcases Finset.mem_union.mp hx with h | h
    · rcases Finset.mem_insert.mp h with rfl | h
      · exact Finset.mem_union_right _ (hq x (List.mem_cons_self x rest))
      · exact Finset.mem_union_left _ h
    · exact Finset.mem_union_right _ h

theorem reveal_flags (g : Minesweeper) (row col : Int) :
    (g.reveal row col).2.flags = g.flags := by
  unfold reveal
  split
  · rfl
  · split <;> rfl

theorem reveal_mines (g : Minesweeper) (row col : Int) :
    (g.reveal row col).2.mines = g.mines := by
  unfold reveal
  split
  · rfl
  · split <;> rfl

theorem reveal_rows (g : Minesweeper) (row col : Int) :
    (g.reveal row col).2.rows = g.rows := by
  unfold reveal
  split
  · rfl
  · split <;> rfl

theorem reveal_cols (g : Minesweeper) (row col : Int) :
    (g.reveal row col).2.cols = g.cols := by
  unfold reveal
  split
  · rfl
  · split <;> rfl

theorem reveal_mine_count (g : Minesweeper) (row col : Int) :
    (g.reveal row col).2.mine_count = g.mine_count := by
  unfold reveal
  split
  · rfl
  · split <;> rfl

theorem reveal_grid (g : Minesweeper) (row col : Int) :
    (g.reveal row col).2.grid = g.grid := by
  unfold grid
  rw [reveal_rows, reveal_cols]

theorem reveal_revealed_mono (g : Minesweeper) (row col : Int) :
    g.revealed ⊆ (g.reveal row col).2.revealed := by
  unfold reveal
  split
  · exact Finset.Subset.refl _
  · split
    · exact Finset.subset_insert _ _
    · exact revealLoop_mono g _ _

/-- A dequeued cell that is neither revealed nor flagged ends up revealed. -/
theorem revealLoop_head_mem (g : Minesweeper) (c : Cell) (rest : List Cell)
    (revealed : Finset Cell) (h : ¬(c ∈ revealed ∨ c ∈ g.flags)) :
    c ∈ revealLoop g (c :: rest) revealed := by
  rw [revealLoop]
  simp only [if_neg h]
  split
  · exact revealLoop_mono g _ _ (Finset.mem_insert_self _ _)
  · exact revealLoop_mono g _ _ (Finset.mem_insert_self _ _)

/-- After any `reveal`, the target cell is revealed or (still) flagged. -/
theorem reveal_start_mem (g : Minesweeper) (row col : Int) :
    (row, col) ∈ (g.reveal row col).2.revealed ∨ (row, col) ∈ (g.reveal row col).2.flags := by
  unfold reveal
  split
  · rename_i h
    rcases h with h | h
    · exact Or.inr h
    · exact Or.inl h
  · split
    · exact Or.inl (Finset.mem_insert_self _ _)
    · rename_i hno _
      exact Or.inl (revealLoop_head_mem g (row, col) [] g.revealed
        fun h => hno (Or.symm h))

/-! ### Branch lemmas for `reveal` -/

theorem reveal_noop (g : Minesweeper) (row col : Int)
    (h : (row, col) ∈ g.flags ∨ (row, col) ∈ g.revealed) :
    g.reveal row col = (true, g) := by
  unfold reveal
  rw [if_pos h]

theorem reveal_mine_eq (g : Minesweeper) (row col : Int)
    (hm : (row, col) ∈ g.mines) (hf : (row, col) ∉ g.flags)
    (hv : (row, col) ∉ g.revealed) :
    g.reveal row col = (false, { g with revealed := insert (row, col) g.revealed }) := by
  unfold reveal
  rw [if_neg (fun h => h.elim hf hv), if_pos hm]

theorem reveal_safe_eq (g : Minesweeper) (row col : Int)
    (hf : (row, col) ∉ g.flags) (hv : (row, col) ∉ g.revealed)
    (hm : (row, col) ∉ g.mines) :
    g.reveal row col =
      (true, { g with revealed := revealLoop g [(row, col)] g.revealed }) := by
  unfold reveal
  rw [if_neg (fun h => h.elim hf hv), if_neg hm]

/-! ### The cascade relation and the exact characterization of `reveal` -/

/-- One cascade step of the flood fill, relative to the pre-call state `g`:
from a cell whose stored count reads 0 to an in-bounds neighbor that is
neither flagged nor revealed in `g`. -/
def step (g : Minesweeper) (a b : Cell) : Prop :=
  g.countsGet a = 0 ∧ b ∈ g.neighbors a.1 a.2 ∧ b ∉ g.flags ∧ b ∉ g.revealed

/-- A zero-count cell (in grid, non-mine) has no mine among its neighbors. -/
theorem countsGet_zero_no_mine_neighbors (g : Minesweeper) (a : Cell)
    (hag : a ∈ g.grid) (ham : a ∉ g.mines) (hz : g.countsGet a = 0) :
    ∀ b ∈ g.neighbors a.1 a.2, b ∉ g.mines := by
  intro b hb hbm
  unfold countsGet neighbor_counts at hz
  rw [if_pos ⟨hag, ham⟩] at hz
  simp only [Option.getD_some] at hz
  exact List.countP_eq_zero.mp hz b hb (decide_eq_true hbm)

/-- Soundness of the loop: everything it reveals is base-revealed or
cascade-reachable from `s`. -/
theorem revealLoop_sound (g : Minesweeper) (s : Cell) (queue : List Cell)
    (v : Finset Cell) :
    g.revealed ⊆ v →
    (∀ x ∈ queue, x ∈ v ∨ x ∈ g.flags ∨ Relation.ReflTransGen (step g) s x) →
    (∀ x ∈ v, x ∈ g.revealed ∨ Relation.ReflTransGen (step g) s x) →
    ∀ x ∈ revealLoop g queue v,
      x ∈ g.revealed ∨ Relation.ReflTransGen (step g) s x := by
  induction queue, v using revealLoop.induct g with
  | case1 v =>
    intro _ _ hv
    rw [revealLoop]
    exact hv
  | case2 v c rest hskip ih =>
    intro hbase hq hv
    rw [revealLoop]
    simp only [hskip, if_pos]
    exact ih hbase (fun x hx => hq x (List.mem_cons_of_mem c hx)) hv
  | case3 v c rest hskip hz ih =>
    intro hbase hq hv
    rw [revealLoop]
    simp only [hskip, hz, if_neg, if_pos, if_false]
    have hcr : Relation.ReflTransGen (step g) s c := by
      rcases hq c (List.mem_cons_self c rest) with h | h | h
      · exact absurd (Or.inl h) hskip
      · exact absurd (Or.inr h) hskip
      · exact h
    refine ih (hbase.trans (Finset.subset_insert c v)) ?_ ?_
    · intro x hx
      rcases List.mem_append.mp hx with h | h
      · rcases hq x (List.mem_cons_of_mem c h) with h' | h' | h'
        · exact Or.inl (Finset.mem_insert_of_mem h')
        · exact Or.inr (Or.inl h')
        · exact Or.inr (Or.inr h')
      · rcases List.mem_filter.mp h with ⟨hmem, hcond⟩
        rcases of_decide_eq_true hcond with ⟨hnotin, hnf⟩
        refine Or.inr (Or.inr (hcr.tail ?_))
        exact ⟨hz, hmem, hnf, fun hrev =>
          hnotin (Finset.mem_insert_of_mem (hbase hrev))⟩
    · intro x hx
      rcases Finset.mem_insert.mp hx with rfl | h
      · exact Or.inr hcr
      · exact hv x h
  | case4 v c rest hskip hz ih =>
    intro hbase hq hv
    rw [revealLoop]
    simp only [hskip, hz, if_neg, if_false]
    have hcr : Relation.ReflTransGen (step g) s c := by
      rcases hq c (List.mem_cons_self c rest) with h | h | h
      · exact absurd (Or.inl h) hskip
      · exact absurd (Or.inr h) hskip
      · exact h
    refine ih (hbase.trans (Finset.subset_insert c v)) ?_ ?_
    · intro x hx
      rcases hq x (List.mem_cons_of_mem c hx) with h' | h' | h'
      · exact Or.inl (Finset.mem_insert_of_mem h')
      · exact Or.inr (Or.inl h')
      · exact Or.inr (Or.inr h')
    · intro x hx
      rcases Finset.mem_insert.mp hx with rfl | h
      · exact Or.inr hcr
      · exact hv x h

/-- Closure of the loop result: every queued cell is flagged or revealed, and
every newly revealed zero-count cell has all its unflagged neighbors
revealed. -/
theorem revealLoop_closure (g : Minesweeper) (queue : List Cell) (v : Finset Cell) :
    (∀ x ∈ queue, x ∈ g.flags ∨ x ∈ revealLoop g queue v) ∧
    (∀ x ∈ revealLoop g queue v, x ∉ v → g.countsGet x = 0 →
      ∀ b ∈ g.neighbors x.1 x.2, b ∉ g.flags → b ∈ revealLoop g queue v) := by
  induction queue, v using revealLoop.induct g with
  | case1 v =>
    rw [revealLoop]
    exact ⟨fun x hx => absurd hx (List.not_mem_nil x),
      fun x hx hxv => absurd hx hxv⟩
  | case2 v c rest hskip ih =>
    rw [revealLoop]
    simp only [hskip, if_pos]
    refine ⟨?_, ih.2⟩
    intro x hx
    rcases List.mem_cons.mp hx with rfl | hx'
    · rcases not_not.mp (fun h => h hskip) with h | h
      · exact Or.inr (revealLoop_mono g rest v h)
      · exact Or.inl h
    · exact ih.1 x hx'
  | case3 v c rest hskip hz ih =>
    rw [revealLoop]
    simp only [hskip, hz, if_neg, if_pos, if_false]
    constructor
    · intro x hx
      rcases List.mem_cons.mp hx with rfl | hx'
      · exact Or.inr (revealLoop_mono g _ _ (Finset.mem_insert_self x v))
      · exact ih.1 x (List.mem_append_left _ hx')
    · intro x hx hxv hxz b hb hbf
      by_cases hxc : x = c
      · subst hxc
        by_cases hbv : b ∈ insert x v
        · exact revealLoop_mono g _ _ hbv
        · have hbq : b ∈ rest ++ (g.neighbors x.1 x.2).filter fun n =>
              n ∉ insert x v ∧ n ∉ g.flags := by
            refine List.mem_append_right _ (List.mem_filter.mpr ⟨hb, ?_⟩)
            exact decide_eq_true ⟨hbv, hbf⟩
          rcases ih.1 b hbq with h | h
          · exact absurd h hbf
          · exact h
      · exact ih.2 x hx (fun h => (Finset.mem_insert.mp h).elim hxc hxv) hxz b hb hbf
  | case4 v c rest hskip hz ih =>
    rw [revealLoop]
    simp only [hskip, hz, if_neg, if_false]
    constructor
    · intro x hx
      rcases List.mem_cons.mp hx with rfl | hx'
      · exact Or.inr (revealLoop_mono g _ _ (Finset.mem_insert_self x v))
      · exact ih.1 x hx'
    · intro x hx hxv hxz b hb hbf
      by_cases hxc : x = c
      · subst hxc
        exact absurd hxz hz
      · exact ih.2 x hx (fun h => (Finset.mem_insert.mp h).elim hxc hxv) hxz b hb hbf

/-- Completeness: every cascade-reachable cell ends up revealed. -/
theorem rtg_mem_revealLoop (g : Minesweeper) (s : Cell)
    (hf : s ∉ g.flags) (hv : s ∉ g.revealed) (x : Cell)
    (h : Relation.ReflTransGen (step g) s x) :
    x ∈ revealLoop g [s] g.revealed ∧ x ∉ g.revealed := by
  induction h with
  | refl =>
    exact ⟨revealLoop_head_mem g s [] g.revealed
      (fun h => h.elim (fun h1 => hv h1) (fun h2 => hf h2)), hv⟩
  | tail h hstep ih =>
    obtain ⟨hz, hnb, hbf, hbv⟩ := hstep
    exact ⟨(revealLoop_closure g [s] g.revealed).2 _ ih.1 ih.2 hz _ hnb hbf, hbv⟩

/-- Every cascade-reachable cell is in-grid, non-mine, unflagged and was
unrevealed before the call. -/
theorem rtg_props (g : Minesweeper) (s : Cell) (hin : s ∈ g.grid)
    (hm : s ∉ g.mines) (hf : s ∉ g.flags) (hv : s ∉ g.revealed) (x : Cell)
    (h : Relation.ReflTransGen (step g) s x) :
    x ∈ g.grid ∧ x ∉ g.mines ∧ x ∉ g.flags ∧ x ∉ g.revealed := by
  induction h with
  | refl => exact ⟨hin, hm, hf, hv⟩
  | tail h hstep ih =>
    obtain ⟨hz, hnb, hbf, hbv⟩ := hstep
    obtain ⟨hag, ham, -, -⟩ := ih
    exact ⟨neighbors_subset_grid g _ _ _ hnb,
      countsGet_zero_no_mine_neighbors g _ hag ham hz _ hnb, hbf, hbv⟩

/-- The revealed set produced by a fresh safe reveal is exactly the base
revealed set plus the cascade-reachable cells. -/
theorem reveal_mem_iff (g : Minesweeper) (row col : Int)
    (hf : (row, col) ∉ g.flags) (hv : (row, col) ∉ g.revealed)
    (hm : (row, col) ∉ g.mines) (x : Cell) :
    x ∈ (g.reveal row col).2.revealed ↔
      x ∈ g.revealed ∨ Relation.ReflTransGen (step g) (row, col) x := by
  rw [reveal_safe_eq g row col hf hv hm]
  constructor
  · exact fun hx => revealLoop_sound g (row, col) [(row, col)] g.revealed
      (Finset.Subset.refl _)
      (fun y hy => by
        rcases List.mem_singleton.mp hy with rfl
        exact Or.inr (Or.inr Relation.ReflTransGen.refl))
      (fun y hy => Or.inl hy) x hx
  · intro hx
    rcases hx with hx | hx
    · exact revealLoop_mono g _ _ hx
    · exact (rtg_mem_revealLoop g (row, col) hf hv x hx).1

/-! ### The region claimed by the spec: connected zero region plus border -/

/-- A step between two connected zero-count cells, the target unflagged and
unrevealed. -/
def zstep (g : Minesweeper) (a b : Cell) : Prop :=
  g.countsGet a = 0 ∧ g.countsGet b = 0 ∧ b ∈ g.neighbors a.1 a.2 ∧
    b ∉ g.flags ∧ b ∉ g.revealed

/-- The connected zero-neighbor-count region reachable from `s` through
unflagged, unrevealed zero-count cells. -/
def zeroRegion (g : Minesweeper) (s : Cell) : Set Cell :=
  {x | Relation.ReflTransGen (g.zstep) s x}

/-- The region the spec says a fresh safe reveal uncovers: when the start
counts 0, the connected zero region plus the unflagged, unrevealed numbered
cells immediately bordering it; otherwise just the start. -/
def claimedRegion (g : Minesweeper) (s : Cell) : Set Cell :=
  if g.countsGet s = 0 then
    zeroRegion g s ∪
      {b | (∃ z ∈ zeroRegion g s, b ∈ g.neighbors z.1 z.2) ∧
        b ∉ g.flags ∧ b ∉ g.revealed ∧ g.countsGet b ≠ 0}
  else {s}

theorem zeroRegion_counts_zero (g : Minesweeper) (s : Cell)
    (hs : g.countsGet s = 0) (z : Cell) (hz : z ∈ zeroRegion g s) :
    g.countsGet z = 0 := by
  rcases Relation.ReflTransGen.cases_tail hz with h | ⟨w, _, hw⟩
  · rw [h]; exact hs
  · exact hw.2.1

/-- Decomposition of cascade reachability into the spec's region. -/
theorem rtg_iff_claimedRegion (g : Minesweeper) (s : Cell)
    (hf : s ∉ g.flags) (hv : s ∉ g.revealed) (x : Cell) :
    Relation.ReflTransGen (step g) s x ↔ x ∈ claimedRegion g s := by
  unfold claimedRegion
  by_cases hs : g.countsGet s = 0
  · rw [if_pos hs]
    constructor
    · intro h
      induction h with
      | refl => exact Or.inl Relation.ReflTransGen.refl
      | tail h hstep ih =>
        rename_i a b
        obtain ⟨hz, hnb, hbf, hbv⟩ := hstep
        rcases ih with ha | ha
        · by_cases hbz : g.countsGet b = 0
          · exact Or.inl (ha.tail ⟨hz, hbz, hnb, hbf, hbv⟩)
          · exact Or.inr ⟨⟨a, ha, hnb⟩, hbf, hbv, hbz⟩
        · exact absurd hz ha.2.2.2
    · intro h
      rcases h with h | ⟨⟨z, hzr, hnb⟩, hbf, hbv, _⟩
      · exact Relation.ReflTransGen.mono
          (fun a b hab => ⟨hab.1, hab.2.2.1, hab.2.2.2.1, hab.2.2.2.2⟩) h
      · exact (Relation.ReflTransGen.mono
          (fun a b hab => ⟨hab.1, hab.2.2.1, hab.2.2.2.1, hab.2.2.2.2⟩) hzr).tail
          ⟨zeroRegion_counts_zero g s hs z hzr, hnb, hbf, hbv⟩
  · rw [if_neg hs]
    constructor
    · intro h
      rcases Relation.ReflTransGen.cases_head h with h' | ⟨b, hb, _⟩
      · exact h'.symm
      · exact absurd hb.1 hs
    · intro h
      rw [Set.mem_singleton_iff] at h
      rw [h]

/-! ### Construction lemmas -/

theorem new_ok_iff (rows cols mine_count : Int) (choices : List Int)
    (g : Minesweeper) :
    new rows cols mine_count choices = .ok g ↔
      0 < rows ∧ 0 < cols ∧ 0 < mine_count ∧ mine_count < rows * cols ∧
      g = { rows := rows, cols := cols, mine_count := mine_count,
            mines := place_mines cols choices, revealed := ∅, flags := ∅ } := by
  constructor
  · intro h
    unfold new at h
    split_ifs at h with h1 h2
    · refine ⟨by omega, by omega, by omega, by omega, ?_⟩
      injection h with h'
      exact h'.symm
  · rintro ⟨h1, h2, h3, h4, rfl⟩
    unfold new
    rw [if_neg (by omega), if_neg (by omega)]

theorem divmod_inj (cols : Int) :
    Function.Injective (fun idx : Int => ((Int.ediv idx cols, Int.emod idx cols) : Cell)) := by
  intro i j hij
  have h1 : Int.ediv i cols = Int.ediv j cols := congrArg Prod.fst hij
  have h2 : Int.emod i cols = Int.emod j cols := congrArg Prod.snd hij
  have hi := Int.ediv_add_emod i cols
  have hj := Int.ediv_add_emod j cols
  rw [show i / cols = Int.ediv i cols from rfl, h1,
    show i % cols = Int.emod i cols from rfl, h2] at hi
  exact hi.symm.trans hj

theorem place_mines_card (cols : Int) (choices : List Int)
    (hnodup : choices.Nodup) :
    (place_mines cols choices).card = choices.length := by
  unfold place_mines
  rw [List.toFinset_card_of_nodup (List.Nodup.map (divmod_inj cols) hnodup)]
  exact List.length_map _ _

theorem place_mines_bounds (rows cols : Int) (choices : List Int)
    (hr : 0 < rows) (hc : 0 < cols)
    (hb : ∀ i ∈ choices, 0 ≤ i ∧ i < rows * cols) :
    ∀ p ∈ place_mines cols choices,
      0 ≤ p.1 ∧ p.1 < rows ∧ 0 ≤ p.2 ∧ p.2 < cols := by
  intro p hp
  unfold place_mines at hp
  rcases List.mem_map.mp (List.mem_toFinset.mp hp) with ⟨i, hi, rfl⟩
  rcases hb i hi with ⟨hi0, hilt⟩
  refine ⟨Int.ediv_nonneg hi0 hc.le, ?_, Int.emod_nonneg i (ne_of_gt hc),
    Int.emod_lt_of_pos i hc⟩
  exact (Int.ediv_lt_iff_lt_mul hc).mpr hilt

theorem grid_card (g : Minesweeper) (hr : 0 ≤ g.rows) (hc : 0 ≤ g.cols) :
    (g.grid.card : Int) = g.rows * g.cols := by
  unfold grid
  rw [Finset.card_product, Int.card_Icc, Int.card_Icc]
  push_cast
  rw [Int.toNat_of_nonneg (by omega), Int.toNat_of_nonneg (by omega)]
  ring

/-! ### Invariants of reachable states -/

theorem toggle_flag_fields (g : Minesweeper) (row col : Int) :
    (g.toggle_flag row col).rows = g.rows ∧ (g.toggle_flag row col).cols = g.cols ∧
    (g.toggle_flag row col).mine_count = g.mine_count ∧
    (g.toggle_flag row col).mines = g.mines ∧
    (g.toggle_flag row col).revealed = g.revealed := by
  unfold toggle_flag
  split
  · exact ⟨rfl, rfl, rfl, rfl, rfl⟩
  · split <;> exact ⟨rfl, rfl, rfl, rfl, rfl⟩

theorem toggle_flag_grid (g : Minesweeper) (row col : Int) :
    (g.toggle_flag row col).grid = g.grid := by
  unfold grid
  rw [(toggle_flag_fields g row col).1, (toggle_flag_fields g row col).2.1]

theorem reachable_invariants (g : Minesweeper) (h : Reachable g) :
    0 < g.rows ∧ 0 < g.cols ∧ 0 < g.mine_count ∧
    g.mine_count < g.rows * g.cols ∧ g.mines ⊆ g.grid ∧
    (g.mines.card : Int) = g.mine_count ∧ g.revealed ⊆ g.grid ∧
    g.flags ⊆ g.grid := by
  induction h with
  | init rows cols mine_count choices g hs hok =>
    rcases (new_ok_iff rows cols mine_count choices g).mp hok with
      ⟨h1, h2, h3, h4, rfl⟩
    rcases hs with ⟨hnodup, hlen, hb⟩
    refine ⟨h1, h2, h3, h4, ?_, ?_, by simp, by simp⟩
    · intro p hp
      rw [mem_grid]
      exact place_mines_bounds rows cols choices h1 h2 hb p hp
    · rw [place_mines_card cols choices hnodup]
      exact hlen
  | reveal_step g row col hreach hin ih =>
    rw [reveal_rows, reveal_cols, reveal_mine_count, reveal_mines, reveal_flags,
      reveal_grid]
    refine ⟨ih.1, ih.2.1, ih.2.2.1, ih.2.2.2.1, ih.2.2.2.2.1, ih.2.2.2.2.2.1, ?_,
      ih.2.2.2.2.2.2.2⟩
    unfold reveal
    split
    · exact ih.2.2.2.2.2.2.1
    · split
      · exact Finset.insert_subset hin ih.2.2.2.2.2.2.1
      · refine (revealLoop_grid g [(row, col)] g.revealed ?_).trans ?_
        · intro x hx
          rcases List.mem_singleton.mp hx with rfl
          exact hin
        · exact Finset.union_subset ih.2.2.2.2.2.2.1 (Finset.Subset.refl _)
  | flag_step g row col hreach hin ih =>
    rcases toggle_flag_fields g row col with ⟨e1, e2, e3, e4, e5⟩
    rw [e1, e2, e3, e4, e5, toggle_flag_grid]
    refine ⟨ih.1, ih.2.1, ih.2.2.1, ih.2.2.2.1, ih.2.2.2.2.1, ih.2.2.2.2.2.1,
      ih.2.2.2.2.2.2.1, ?_⟩
    unfold toggle_flag
    split
    · exact ih.2.2.2.2.2.2.2
    · split
      · exact (Finset.erase_subset _ _).trans ih.2.2.2.2.2.2.2
      · exact Finset.insert_subset hin ih.2.2.2.2.2.2.2

/-- Flag/reveal disjointness along reachable states. -/
theorem reachable_disjoint (g : Minesweeper) (h : Reachable g) :
    ∀ x ∈ g.flags, x ∉ g.revealed := by
  induction h with
  | init rows cols mine_count choices g hs hok =>
    rcases (new_ok_iff rows cols mine_count choices g).mp hok with
      ⟨-, -, -, -, rfl⟩
    intro x hx
    exact absurd hx (Finset.not_mem_empty x)
  | reveal_step g row col hreach hin ih =>
    rw [reveal_flags]
    intro x hx hxr
    unfold reveal at hxr
    split at hxr
    · exact ih x hx hxr
    · split at hxr
      · rcases Finset.mem_insert.mp hxr with rfl | hxr'
        · rename_i hno _
          exact hno (Or.inl hx)
        · exact ih x hx hxr'
      · rcases revealLoop_not_flag g _ _ x hxr with h' | h'
        · exact ih x hx h'
        · exact h' hx
  | flag_step g row col hreach hin ih =>
    rw [(toggle_flag_fields g row col).2.2.2.2]
    intro x hx
    unfold toggle_flag at hx
    split at hx
    · exact ih x hx
    · split at hx
      · exact ih x (Finset.mem_of_mem_erase hx)
      · rcases Finset.mem_insert.mp hx with rfl | hx'
        · rename_i hno _
          exact hno
        · exact ih x hx'

/-! ### Neighbor-count value lemmas -/

theorem mem_neighbors (g : Minesweeper) (row col : Int) (y : Cell) :
    y ∈ g.neighbors row col ↔
      ∃ d ∈ deltas, y = (row + d.1, col + d.2) ∧ y ∈ g.grid := by
  unfold neighbors
  rw [List.mem_filterMap]
  constructor
  · rintro ⟨d, hd, hy⟩
    split at hy
    · rcases Option.some.inj hy with rfl
      rename_i hb
      exact ⟨d, hd, rfl, (g.mem_grid _).mpr hb⟩
    · exact absurd hy (by simp)
  · rintro ⟨d, hd, rfl, hg⟩
    refine ⟨d, hd, ?_⟩
    rw [if_pos ((g.mem_grid _).mp hg)]

theorem neighbors_nodup (g : Minesweeper) (row col : Int) :
    (g.neighbors row col).Nodup := by
  unfold neighbors
  refine List.Nodup.filterMap ?_ (by decide)
  intro a a' b hb hb'
  rw [Option.mem_def] at hb hb'
  split at hb
  · split at hb'
    · have h3 := (Option.some.inj hb).trans (Option.some.inj hb').symm
      have e1 : row + a.1 = row + a'.1 := congrArg Prod.fst h3
      have e2 : col + a.2 = col + a'.2 := congrArg Prod.snd h3
      exact Prod.ext (by omega) (by omega)
    · exact absurd hb' (by simp)
  · exact absurd hb (by simp)

/-- Modelled from the spec: "the number of that cell's in-bounds
8-neighborhood coordinates that are in the Mine Set". -/
def nbhdMineCount (g : Minesweeper) (x : Cell) : Nat :=
  ((deltas.map fun d => ((x.1 + d.1, x.2 + d.2) : Cell)).toFinset.filter
    fun p => p ∈ g.grid ∧ p ∈ g.mines).card

theorem countP_eq_nbhdMineCount (g : Minesweeper) (x : Cell) :
    (g.neighbors x.1 x.2).countP (fun n => decide (n ∈ g.mines)) =
      nbhdMineCount g x := by
  rw [List.countP_eq_length_filter,
    ← List.toFinset_card_of_nodup (List.Nodup.filter _ (neighbors_nodup g x.1 x.2)),
    List.toFinset_filter]
  unfold nbhdMineCount
  congr 1
  ext p
  simp only [Finset.mem_filter, List.mem_toFinset, decide_eq_true_eq, List.mem_map]
  constructor
  · rintro ⟨hp, hpm⟩
    rcases (mem_neighbors g x.1 x.2 p).mp hp with ⟨d, hd, rfl, hg⟩
    exact ⟨⟨d, hd, rfl⟩, hg, hpm⟩
  · rintro ⟨⟨d, hd, rfl⟩, hg, hpm⟩
    exact ⟨(mem_neighbors g x.1 x.2 _).mpr ⟨d, hd, rfl, hg⟩, hpm⟩

theorem neighbors_length_le (g : Minesweeper) (row col : Int) :
    (g.neighbors row col).length ≤ 8 :=
  (List.length_filterMap_le _ _).trans (by rw [show deltas.length = 8 from rfl])

/-! ### Concrete example boards -/

/-- The 1x2 board with one mine at `(0,0)`, as built by `new 1 2 1 [0]`. -/
def mineFirst : Minesweeper :=
  { rows := 1, cols := 2, mine_count := 1, mines := {(0, 0)},
    revealed := ∅, flags := ∅ }

theorem new_mineFirst : new 1 2 1 [0] = .ok mineFirst :=
  (new_ok_iff 1 2 1 [0] mineFirst).mpr
    ⟨by decide, by decide, by decide, by decide, by decide⟩

theorem sampleOk_mineFirst : SampleOk 1 2 1 [0] := by
  unfold SampleOk
  decide

/-- The state of `mineFirst` after revealing the mine at `(0,0)`. -/
def mineFirstHit : Minesweeper :=
  { rows := 1, cols := 2, mine_count := 1, mines := {(0, 0)},
    revealed := {(0, 0)}, flags := ∅ }

theorem reveal_mineFirst : mineFirst.reveal 0 0 = (false, mineFirstHit) := by
  decide

theorem reachable_mineFirstHit : Reachable mineFirstHit := by
  have h0 : Reachable mineFirst :=
    Reachable.init 1 2 1 [0] mineFirst sampleOk_mineFirst new_mineFirst
  have h1 := Reachable.reveal_step mineFirst 0 0 h0 (by decide)
  rw [reveal_mineFirst] at h1
  exact h1

/-- A 3x3 board with one mine in the center, as built by `new 3 3 1 [4]`. -/
def centerMine : Minesweeper :=
  { rows := 3, cols := 3, mine_count := 1, mines := {(1, 1)},
    revealed := ∅, flags := ∅ }

theorem new_centerMine : new 3 3 1 [4] = .ok centerMine :=
  (new_ok_iff 3 3 1 [4] centerMine).mpr
    ⟨by decide, by decide, by decide, by decide, by decide⟩

/-! ### Claim theorems -/

/-- C1 (amended): for every in-bounds cell, a reveal on an already flagged or
already revealed cell is a no-op on the whole state and returns true; a
second reveal of the same coordinate (with no flag changes in between) is a
no-op on the whole state and returns true, which equals the first call's
result except when the first call revealed a mine (then the first call
returned false and the second returns true). -/
theorem claim_C1 (g : Minesweeper) (row col : Int)
    (hin : (row, col) ∈ g.grid) :
    ((row, col) ∈ g.flags ∨ (row, col) ∈ g.revealed →
      g.reveal row col = (true, g)) ∧
    ((g.reveal row col).2.reveal row col = (true, (g.reveal row col).2)) ∧
    ((row, col) ∉ g.mines ∨ (row, col) ∈ g.flags ∨ (row, col) ∈ g.revealed →
      (g.reveal row col).1 = true) := by
  refine ⟨reveal_noop g row col, ?_, ?_⟩
  · rcases reveal_start_mem g row col with h | h
    · exact reveal_noop _ row col (Or.inr h)
    · exact reveal_noop _ row col (Or.inl h)
  · intro h
    rcases Classical.em ((row, col) ∈ g.flags ∨ (row, col) ∈ g.revealed) with hfv | hfv
    · rw [reveal_noop g row col hfv]
    · have hm : (row, col) ∉ g.mines := by tauto
      rw [reveal_safe_eq g row col (fun hf => hfv (Or.inl hf))
        (fun hv => hfv (Or.inr hv)) hm]

/-- C1 witness: the amended statement instantiated on the 1x2 board at the
safe cell (0,1). -/
theorem claim_C1_witness :
    (0, 1) ∈ mineFirst.grid ∧
    (((0, 1) ∈ mineFirst.flags ∨ (0, 1) ∈ mineFirst.revealed →
        mineFirst.reveal 0 1 = (true, mineFirst)) ∧
      ((mineFirst.reveal 0 1).2.reveal 0 1 = (true, (mineFirst.reveal 0 1).2)) ∧
      ((0, 1) ∉ mineFirst.mines ∨ (0, 1) ∈ mineFirst.flags ∨
          (0, 1) ∈ mineFirst.revealed →
        (mineFirst.reveal 0 1).1 = true)) :=
  ⟨by decide, claim_C1 mineFirst 0 1 (by decide)⟩

/-- C1 counterexample: on the 1x2 board with its mine at (0,0) (an in-bounds,
unflagged, unrevealed cell), the first reveal returns false and the second
reveal of the same coordinate returns true, so the second call does not
return the same boolean result as the first. -/
theorem claim_C1_counterexample :
    (0, 0) ∈ mineFirst.grid ∧ (0, 0) ∉ mineFirst.flags ∧
    (mineFirst.reveal 0 0).1 = false ∧
    ((mineFirst.reveal 0 0).2.reveal 0 0).1 = true ∧
    ((mineFirst.reveal 0 0).2.reveal 0 0).1 ≠ (mineFirst.reveal 0 0).1 := by
  decide

/-- C2 (amended): in every reachable state, isWon returns true iff the size
of the Revealed Set equals R*C - M, irrespective of the Flagged Set; this
coincides with "every non-mine cell has been revealed" provided no mine has
been revealed. -/
theorem claim_C2 (g : Minesweeper) (h : Reachable g) :
    (g.is_won = true ↔
      (g.revealed.card : Int) = g.rows * g.cols - g.mine_count) ∧
    ((∀ x ∈ g.revealed, x ∉ g.mines) →
      (g.is_won = true ↔ ∀ x ∈ g.grid, x ∉ g.mines → x ∈ g.revealed)) := by
  obtain ⟨hr, hc, hm0, hmlt, hmg, hmcard, hrg, -⟩ := reachable_invariants g h
  have hwon : g.is_won = true ↔
      (g.revealed.card : Int) = g.rows * g.cols - g.mine_count := by
    simp [is_won]
  refine ⟨hwon, ?_⟩
  intro hdisj
  have hcard2 : ((g.grid \ g.mines).card : Int) =
      g.rows * g.cols - g.mine_count := by
    rw [Finset.card_sdiff hmg, Nat.cast_sub (Finset.card_le_card hmg),
      grid_card g hr.le hc.le, hmcard]
  have hsub : g.revealed ⊆ g.grid \ g.mines := fun y hy =>
    Finset.mem_sdiff.mpr ⟨hrg hy, hdisj y hy⟩
  rw [hwon]
  constructor
  · intro hcard x hxg hxm
    have hcards : (g.grid \ g.mines).card ≤ g.revealed.card := by
      have hh := hcard.trans hcard2.symm
      exact_mod_cast le_of_eq hh.symm
    rw [Finset.eq_of_subset_of_card_le hsub hcards]
    exact Finset.mem_sdiff.mpr ⟨hxg, hxm⟩
  · intro hall
    have heq : g.revealed = g.grid \ g.mines :=
      Finset.Subset.antisymm hsub (fun y hy => by
        rcases Finset.mem_sdiff.mp hy with ⟨h1, h2⟩
        exact hall y h1 h2)
    rw [heq, hcard2]

/-- C2 witness: the amended statement instantiated on the reachable post-mine
1x2 state. -/
theorem claim_C2_witness :
    Reachable mineFirstHit ∧
    ((mineFirstHit.is_won = true ↔
        (mineFirstHit.revealed.card : Int) =
          mineFirstHit.rows * mineFirstHit.cols - mineFirstHit.mine_count) ∧
      ((∀ x ∈ mineFirstHit.revealed, x ∉ mineFirstHit.mines) →
        (mineFirstHit.is_won = true ↔
          ∀ x ∈ mineFirstHit.grid, x ∉ mineFirstHit.mines →
            x ∈ mineFirstHit.revealed))) :=
  ⟨reachable_mineFirstHit, claim_C2 mineFirstHit reachable_mineFirstHit⟩

/-- C2 counterexample: a state reachable by in-bounds operations in which
isWon returns true although the non-mine cell (0,1) has not been revealed
(the revealed mine counts toward the Revealed Set size). -/
theorem claim_C2_counterexample :
    Reachable mineFirstHit ∧ mineFirstHit.is_won = true ∧
    (0, 1) ∈ mineFirstHit.grid ∧ (0, 1) ∉ mineFirstHit.mines ∧
    (0, 1) ∉ mineFirstHit.revealed :=
  ⟨reachable_mineFirstHit, by decide, by decide, by decide, by decide⟩

/-- C3: there is a valid construction (1x2, one mine, sample index 0) and an
in-bounds reveal that hits the mine, after which isWon returns true although
the non-mine cell (0,1) is still unrevealed. -/
theorem claim_C3 :
    ∃ g gHit : Minesweeper,
      SampleOk 1 2 1 [0] ∧ new 1 2 1 [0] = .ok g ∧
      (0, 0) ∈ g.grid ∧ (0, 0) ∈ g.mines ∧
      g.reveal 0 0 = (false, gHit) ∧ gHit.is_won = true ∧
      (0, 1) ∈ gHit.grid ∧ (0, 1) ∉ gHit.mines ∧ (0, 1) ∉ gHit.revealed := by
  refine ⟨mineFirst, mineFirstHit, sampleOk_mineFirst, new_mineFirst,
    ?_, ?_, ?_, ?_, ?_, ?_, ?_⟩ <;> decide

/-- C4: a reveal on an in-bounds, unflagged, unrevealed non-mine cell returns
true and reveals exactly the connected zero-count region reachable from the
start through unflagged, unrevealed zero-count cells plus the unflagged,
unrevealed numbered cells immediately bordering it (or just the start when
its count is nonzero); no flagged cell and no mine is in that region. -/
theorem claim_C4 (g : Minesweeper) (row col : Int)
    (hin : (row, col) ∈ g.grid) (hf : (row, col) ∉ g.flags)
    (hv : (row, col) ∉ g.revealed) (hm : (row, col) ∉ g.mines) :
    (g.reveal row col).1 = true ∧
    (∀ x, x ∈ (g.reveal row col).2.revealed ↔
      x ∈ g.revealed ∨ x ∈ claimedRegion g (row, col)) ∧
    (∀ x ∈ claimedRegion g (row, col), x ∉ g.flags ∧ x ∉ g.mines) := by
  refine ⟨?_, ?_, ?_⟩
  · rw [reveal_safe_eq g row col hf hv hm]
  · intro x
    rw [reveal_mem_iff g row col hf hv hm x,
      rtg_iff_claimedRegion g (row, col) hf hv x]
  · intro x hx
    have hp := rtg_props g (row, col) hin hm hf hv x
      ((rtg_iff_claimedRegion g (row, col) hf hv x).mpr hx)
    exact ⟨hp.2.2.1, hp.2.1⟩

/-- C4 witness: the statement instantiated on the 3x3 center-mine board at
the numbered corner (0,0). -/
theorem claim_C4_witness :
    ((0, 0) ∈ centerMine.grid ∧ (0, 0) ∉ centerMine.flags ∧
      (0, 0) ∉ centerMine.revealed ∧ (0, 0) ∉ centerMine.mines) ∧
    ((centerMine.reveal 0 0).1 = true ∧
      (∀ x, x ∈ (centerMine.reveal 0 0).2.revealed ↔
        x ∈ centerMine.revealed ∨ x ∈ claimedRegion centerMine (0, 0)) ∧
      (∀ x ∈ claimedRegion centerMine (0, 0),
        x ∉ centerMine.flags ∧ x ∉ centerMine.mines)) :=
  ⟨⟨by decide, by decide, by decide, by decide⟩,
    claim_C4 centerMine 0 0 (by decide) (by decide) (by decide) (by decide)⟩

/-- C5: revealing an in-bounds mine cell that is neither flagged nor revealed
adds exactly that one cell to the Revealed Set, returns false, performs no
cascade, and leaves every other component of the state (mines, flags,
dimensions, and the neighbor-count map) unchanged. -/
theorem claim_C5 (g : Minesweeper) (row col : Int)
    (hin : (row, col) ∈ g.grid) (hm : (row, col) ∈ g.mines)
    (hf : (row, col) ∉ g.flags) (hv : (row, col) ∉ g.revealed) :
    g.reveal row col =
      (false, { g with revealed := insert (row, col) g.revealed }) ∧
    (∀ x, (g.reveal row col).2.neighbor_counts x = g.neighbor_counts x) := by
  refine ⟨reveal_mine_eq g row col hm hf hv, ?_⟩
  intro x
  rw [reveal_mine_eq g row col hm hf hv]
  rfl

/-- C5 witness: the statement instantiated on the 1x2 board at its mine. -/
theorem claim_C5_witness :
    ((0, 0) ∈ mineFirst.grid ∧ (0, 0) ∈ mineFirst.mines ∧
      (0, 0) ∉ mineFirst.flags ∧ (0, 0) ∉ mineFirst.revealed) ∧
    (mineFirst.reveal 0 0 =
        (false, { mineFirst with revealed := insert (0, 0) mineFirst.revealed }) ∧
      (∀ x, (mineFirst.reveal 0 0).2.neighbor_counts x =
        mineFirst.neighbor_counts x)) :=
  ⟨⟨by decide, by decide, by decide, by decide⟩,
    claim_C5 mineFirst 0 0 (by decide) (by decide) (by decide) (by decide)⟩

/-- C6: construction fails with InvalidDimensions exactly when rows ≤ 0 or
cols ≤ 0; otherwise it fails with InvalidMineCount exactly when
mineCount ≤ 0 or mineCount ≥ rows*cols; for all other arguments it returns
an engine (never a silently clamped one). -/
theorem claim_C6 (rows cols mine_count : Int) (choices : List Int) :
    (new rows cols mine_count choices = .error .InvalidDimensions ↔
      rows ≤ 0 ∨ cols ≤ 0) ∧
    (new rows cols mine_count choices = .error .InvalidMineCount ↔
      (0 < rows ∧ 0 < cols) ∧ (mine_count ≤ 0 ∨ rows * cols ≤ mine_count)) ∧
    (0 < rows → 0 < cols → 0 < mine_count → mine_count < rows * cols →
      ∃ g, new rows cols mine_count choices = .ok g) := by
  unfold new
  by_cases h1 : rows ≤ 0 ∨ cols ≤ 0
  · rw [if_pos h1]
    refine ⟨⟨fun _ => h1, fun _ => rfl⟩, ⟨fun h => absurd h (by simp), ?_⟩, ?_⟩
    · rintro ⟨⟨hr0, hc0⟩, -⟩
      exact absurd h1 (by omega)
    · intro hr0 hc0 _ _
      exact absurd h1 (by omega)
  · rw [if_neg h1]
    by_cases h2 : mine_count ≤ 0 ∨ rows * cols ≤ mine_count
    · rw [if_pos h2]
      refine ⟨⟨fun h => absurd h (by simp), fun hco => absurd hco h1⟩,
        ⟨fun _ => ⟨by omega, h2⟩, fun _ => rfl⟩, ?_⟩
      intro _ _ hm0 hmlt
      exact absurd h2 (by omega)
    · rw [if_neg h2]
      exact ⟨⟨fun h => absurd h (by simp), fun hco => absurd hco h1⟩,
        ⟨fun h => absurd h (by simp), fun hc => absurd hc.2 h2⟩,
        fun _ _ _ _ => ⟨_, rfl⟩⟩

/-- C7: for every successful construction and any admissible sampling
outcome, the Mine Set has exactly mineCount (distinct) coordinates, all
in-bounds, and the Revealed and Flagged Sets start empty. -/
theorem claim_C7 (rows cols mine_count : Int) (choices : List Int)
    (g : Minesweeper) (hs : SampleOk rows cols mine_count choices)
    (hok : new rows cols mine_count choices = .ok g) :
    (g.mines.card : Int) = mine_count ∧ (∀ p ∈ g.mines, p ∈ g.grid) ∧
    g.revealed = ∅ ∧ g.flags = ∅ := by
  rcases (new_ok_iff rows cols mine_count choices g).mp hok with
    ⟨h1, h2, h3, h4, rfl⟩
  rcases hs with ⟨hnodup, hlen, hb⟩
  refine ⟨?_, ?_, rfl, rfl⟩
  · rw [place_mines_card cols choices hnodup]
    exact hlen
  · intro p hp
    rw [mem_grid]
    exact place_mines_bounds rows cols choices h1 h2 hb p hp

/-- C7 witness: the statement instantiated on `new 1 2 1 [0]`. -/
theorem claim_C7_witness :
    (SampleOk 1 2 1 [0] ∧ new 1 2 1 [0] = .ok mineFirst) ∧
    ((mineFirst.mines.card : Int) = 1 ∧
      (∀ p ∈ mineFirst.mines, p ∈ mineFirst.grid) ∧
      mineFirst.revealed = ∅ ∧ mineFirst.flags = ∅) :=
  ⟨⟨sampleOk_mineFirst, new_mineFirst⟩,
    claim_C7 1 2 1 [0] mineFirst sampleOk_mineFirst new_mineFirst⟩

/-- C8: after every successful construction, the neighbor-count map is
defined for exactly the in-grid non-mine cells, and on those cells it equals
the number of the cell's in-bounds 8-neighborhood coordinates that are in
the Mine Set, a number between 0 and 8. -/
theorem claim_C8 (rows cols mine_count : Int) (choices : List Int)
    (g : Minesweeper) (hok : new rows cols mine_count choices = .ok g) :
    (∀ x, (g.neighbor_counts x).isSome = true ↔ x ∈ g.grid ∧ x ∉ g.mines) ∧
    (∀ x ∈ g.grid, x ∉ g.mines →
      g.neighbor_counts x = some (nbhdMineCount g x) ∧
      nbhdMineCount g x ≤ 8) := by
  constructor
  · intro x
    unfold neighbor_counts
    split
    · rename_i hcond
      simp [hcond]
    · rename_i hcond
      simp [hcond]
  · intro x hxg hxm
    have hval : g.neighbor_counts x = some (nbhdMineCount g x) := by
      unfold neighbor_counts
      rw [if_pos ⟨hxg, hxm⟩, countP_eq_nbhdMineCount]
    refine ⟨hval, ?_⟩
    rw [← countP_eq_nbhdMineCount]
    exact (List.countP_le_length _).trans (neighbors_length_le g x.1 x.2)

/-- C8 witness: the statement instantiated on `new 3 3 1 [4]`. -/
theorem claim_C8_witness :
    new 3 3 1 [4] = .ok centerMine ∧
    ((∀ x, (centerMine.neighbor_counts x).isSome = true ↔
        x ∈ centerMine.grid ∧ x ∉ centerMine.mines) ∧
      (∀ x ∈ centerMine.grid, x ∉ centerMine.mines →
        centerMine.neighbor_counts x = some (nbhdMineCount centerMine x) ∧
        nbhdMineCount centerMine x ≤ 8)) :=
  ⟨new_centerMine, claim_C8 3 3 1 [4] centerMine new_centerMine⟩

/-- C9: in every reachable state the Flagged Set and the Revealed Set are
disjoint; toggleFlag only ever adds a flag on an unrevealed cell, and reveal
(including the cascade) only ever adds unflagged cells to the Revealed
Set. -/
theorem claim_C9 (g : Minesweeper) (h : Reachable g) :
    (∀ x ∈ g.flags, x ∉ g.revealed) ∧
    (∀ row col x, x ∈ (g.toggle_flag row col).flags → x ∉ g.flags →
      x ∉ g.revealed) ∧
    (∀ row col x, x ∈ (g.reveal row col).2.revealed → x ∉ g.revealed →
      x ∉ g.flags) := by
  refine ⟨reachable_disjoint g h, ?_, ?_⟩
  · intro row col x hx hnf
    unfold toggle_flag at hx
    split at hx
    · exact absurd hx hnf
    · split at hx
      · exact absurd (Finset.mem_of_mem_erase hx) hnf
      · rcases Finset.mem_insert.mp hx with heq | hx'
        · rename_i hrev _
          rw [heq]
          exact hrev
        · exact absurd hx' hnf
  · intro row col x hx hnv
    unfold reveal at hx
    split at hx
    · exact absurd hx hnv
    · split at hx
      · rcases Finset.mem_insert.mp hx with heq | hx'
        · rename_i hno _
          rw [heq]
          exact fun hfl => hno (Or.inl hfl)
        · exact absurd hx' hnv
      · rcases revealLoop_not_flag g _ _ x hx with h' | h'
        · exact absurd h' hnv
        · exact h'

/-- C9 witness: the statement instantiated on the reachable post-mine 1x2
state. -/
theorem claim_C9_witness :
    Reachable mineFirstHit ∧
    ((∀ x ∈ mineFirstHit.flags, x ∉ mineFirstHit.revealed) ∧
      (∀ row col x, x ∈ (mineFirstHit.toggle_flag row col).flags →
        x ∉ mineFirstHit.flags → x ∉ mineFirstHit.revealed) ∧
      (∀ row col x, x ∈ (mineFirstHit.reveal row col).2.revealed →
        x ∉ mineFirstHit.revealed → x ∉ mineFirstHit.flags)) :=
  ⟨reachable_mineFirstHit, claim_C9 mineFirstHit reachable_mineFirstHit⟩

/-- C10: every reveal on an in-bounds coordinate is a total function whose
work is bounded by the grid: the revealed set grows monotonically, stays
inside the old revealed set plus the grid, and its size gains at most
R*C cells. -/
theorem claim_C10 (g : Minesweeper) (row col : Int)
    (hin : (row, col) ∈ g.grid) :
    g.revealed ⊆ (g.reveal row col).2.revealed ∧
    (g.reveal row col).2.revealed ⊆ g.revealed ∪ g.grid ∧
    (g.reveal row col).2.revealed.card ≤ g.revealed.card + g.grid.card ∧
    (g.grid.card : Int) = g.rows * g.cols := by
  have hsub : (g.reveal row col).2.revealed ⊆ g.revealed ∪ g.grid := by
    unfold reveal
    split
    · exact Finset.subset_union_left
    · split
      · exact Finset.insert_subset (Finset.mem_union_right _ hin)
          Finset.subset_union_left
      · exact revealLoop_grid g [(row, col)] g.revealed
          (fun x hx => by
            rcases List.mem_singleton.mp hx with rfl
            exact hin)
  have hb := (g.mem_grid _).mp hin
  refine ⟨reveal_revealed_mono g row col, hsub, ?_, ?_⟩
  · exact (Finset.card_le_card hsub).trans (Finset.card_union_le _ _)
  · exact grid_card g (by omega) (by omega)

/-- C10 witness: the statement instantiated on the 3x3 center-mine board at
(0,0). -/
theorem claim_C10_witness :
    (0, 0) ∈ centerMine.grid ∧
    (centerMine.revealed ⊆ (centerMine.reveal 0 0).2.revealed ∧
      (centerMine.reveal 0 0).2.revealed ⊆ centerMine.revealed ∪ centerMine.grid ∧
      (centerMine.reveal 0 0).2.revealed.card ≤
        centerMine.revealed.card + centerMine.grid.card ∧
      (centerMine.grid.card : Int) = centerMine.rows * centerMine.cols) :=
  ⟨by decide, claim_C10 centerMine 0 0 (by decide)⟩

end Minesweeper
